import Mathlib

/-!
Verification of the chd-rs CHD v5 reader against its specification.

The Rust sources under `src/` are shallowly embedded: byte buffers become
`List Nat` (each element a byte value), machine integers become `Nat`/`Int`
with explicit `% 2 ^ w` where overflow matters, fallible operations return
`Except String`.  Modules of the repository that are not present under
`src/` (`bitstream.rs`, `huffman.rs`, `lzma.rs`, `ecc.rs`) and external
crates (`inflate`, `claxon`, `crc16`) are abstracted as parameters or
modelled from the specification, as marked on each definition.
-/

namespace ChdProof

/-- `true` exactly on `Except.ok`; mirrors asking whether a Rust
`io::Result` is `Ok`. -/
def exceptIsOk : Except String α → Bool
  | .ok _ => true
  | .error _ => false

/-- Cast of an unsigned 64-bit value (a `Nat` below `2 ^ 64`) to `i64`,
as Rust's `as i64` does: values at or above `2 ^ 63` wrap to negatives. -/
def toI64 (x : Nat) : Int :=
  if x < 2 ^ 63 then (x : Int) else (x : Int) - 2 ^ 64

/-- `i64::checked_add`: the mathematical sum when it fits in `i64`,
`none` otherwise. -/
def checkedAddI64 (a b : Int) : Option Int :=
  if -(2 ^ 63) ≤ a + b ∧ a + b ≤ 2 ^ 63 - 1 then some (a + b) else none

theorem toI64_of_lt (x : Nat) (h : x < 2 ^ 63) : toI64 x = (x : Int) := by
  unfold toI64
  rw [if_pos h]

theorem toI64_lt_of_u64 (x : Nat) (h : x < 2 ^ 64) : toI64 x < 2 ^ 63 := by
  unfold toI64
  split <;> omega

/-- `std::io::SeekFrom`. -/
inductive SeekFromM where
  | start (x : Nat)
  | current (x : Int)
  | fromEnd (x : Int)

/-- Embedding of `<Chd as Seek>::seek` (src/lib.rs:622-659).  `sizeU` is the
u64 logical size `header.size`, `pos` the current `i64` position.  Returns
the seek result together with the position field after the call, so that
the effect of failing calls on the state is visible. -/
def chdSeek (sizeU : Nat) (pos : Int) (sf : SeekFromM) : Except String Int × Int :=
  let size : Int := toI64 sizeU
  let newposE : Except String Int :=
    match sf with
    | .start x => .ok (toI64 x)
    | .current x =>
      match checkedAddI64 pos x with
      | some xx => .ok xx
      | none => .error "chd: overflowing seek"
    | .fromEnd x =>
      match checkedAddI64 size x with
      | some xx => .ok xx
      | none => .error "chd: overflowing seek from logical end"
  match newposE with
  | .error e => (.error e, pos)
  | .ok newpos =>
    if newpos < 0 ∨ newpos > size then
      (.error "chd: invalid seek out of logical size", pos)
    else
      (.ok newpos, newpos)

/-- C6: `seek` succeeds and returns the new position exactly when the
resolved target lies in `[0, size]` (a seek to exactly `size` is allowed);
out-of-range targets and overflowing `Current`/`End` offset arithmetic
yield an error; `Start s` then `Current 0` returns `s` for `s ∈ [0, size]`
and errors for `s` outside it; `End 0` returns `size`; `Current (-size)`
from `size` returns `0`; `Current (-size-1)` from `0` errors. -/
theorem chdSeek_ranges (sizeU : Nat) (pos : Int)
    (hsz : sizeU < 2 ^ 63) (hp0 : 0 ≤ pos) (hps : pos ≤ (sizeU : Int)) :
    (∀ s : Nat, s ≤ sizeU → chdSeek sizeU pos (.start s) = (.ok (s : Int), (s : Int)))
    ∧ (∀ s : Nat, sizeU < s → s < 2 ^ 64 →
        exceptIsOk (chdSeek sizeU pos (.start s)).1 = false)
    ∧ (∀ x : Int, 0 ≤ pos + x → pos + x ≤ (sizeU : Int) →
        chdSeek sizeU pos (.current x) = (.ok (pos + x), pos + x))
    ∧ (∀ x : Int, pos + x < 0 ∨ (sizeU : Int) < pos + x →
        exceptIsOk (chdSeek sizeU pos (.current x)).1 = false)
    ∧ (∀ x : Int, 0 ≤ (sizeU : Int) + x → x ≤ 0 →
        chdSeek sizeU pos (.fromEnd x) = (.ok ((sizeU : Int) + x), (sizeU : Int) + x))
    ∧ (∀ x : Int, (sizeU : Int) + x < 0 ∨ 0 < x →
        exceptIsOk (chdSeek sizeU pos (.fromEnd x)).1 = false)
    ∧ chdSeek sizeU pos (.fromEnd 0) = (.ok (sizeU : Int), (sizeU : Int))
    ∧ chdSeek sizeU (sizeU : Int) (.current (-(sizeU : Int))) = (.ok 0, 0)
    ∧ exceptIsOk (chdSeek sizeU 0 (.current (-(sizeU : Int) - 1))).1 = false
    ∧ (∀ s : Nat, s ≤ sizeU →
        chdSeek sizeU ((chdSeek sizeU pos (.start s)).2) (.current 0)
          = (.ok (s : Int), (s : Int))) := by
  have hcast : ∀ s : Nat, s ≤ sizeU → toI64 s = (s : Int) := by
    intro s hs
    exact toI64_of_lt s (lt_of_le_of_lt hs hsz)
  have hsizecast := toI64_of_lt sizeU hsz
  refine ⟨?_, ?_, ?_, ?_, ?_, ?_, ?_, ?_, ?_, ?_⟩
  · intro s hs
    simp only [chdSeek, hcast s hs, hsizecast]
    rw [if_neg]
    omega
  · intro s hlo hhi
    by_cases h63 : s < 2 ^ 63
    · simp only [chdSeek, toI64_of_lt s h63, hsizecast]
      rw [if_pos]
      · rfl
      · omega
    · simp only [chdSeek, toI64, if_neg h63, hsizecast]
      rw [if_pos]
      · rfl
      · left
        omega
  · intro x h0 h1
    simp only [chdSeek, checkedAddI64, hsizecast]
    rw [if_pos (by omega)]
    simp only
    rw [if_neg (by omega)]
  · intro x h
    simp only [chdSeek, checkedAddI64, hsizecast]
    by_cases hin : -(2 ^ 63) ≤ pos + x ∧ pos + x ≤ 2 ^ 63 - 1
    · rw [if_pos hin]
      simp only
      rw [if_pos (by omega)]
      rfl
    · rw [if_neg hin]
      rfl
  · intro x h0 h1
    simp only [chdSeek, checkedAddI64, hsizecast]
    rw [if_pos (by omega)]
    simp only
    rw [if_neg (by omega)]
  · intro x h
    simp only [chdSeek, checkedAddI64, hsizecast]
    by_cases hin : -(2 ^ 63) ≤ (sizeU : Int) + x ∧ (sizeU : Int) + x ≤ 2 ^ 63 - 1
    · rw [if_pos hin]
      simp only
      rw [if_pos (by omega)]
      rfl
    · rw [if_neg hin]
      rfl
  · simp only [chdSeek, checkedAddI64, hsizecast]
    rw [if_pos (by omega)]
    simp only
    rw [if_neg (by omega)]
    norm_num
  · simp only [chdSeek, checkedAddI64, hsizecast]
    rw [if_pos (by constructor <;> omega)]
    simp only
    rw [if_neg (by omega)]
    norm_num
  · simp only [chdSeek, checkedAddI64, hsizecast]
    rw [if_pos (by constructor <;> omega)]
    simp only
    rw [if_pos (by omega)]
    rfl
  · intro s hs
    have h1 : chdSeek sizeU pos (.start s) = (.ok (s : Int), (s : Int)) := by
      simp only [chdSeek, hcast s hs, hsizecast]
      rw [if_neg (by omega)]
    rw [h1]
    simp only [chdSeek, checkedAddI64, hsizecast]
    rw [if_pos (by constructor <;> omega)]
    simp only [add_zero]
    rw [if_neg (by omega)]

/-- Witness for `chdSeek_ranges` at `sizeU = 4`, `pos = 1`. -/
theorem chdSeek_ranges_wit :
    chdSeek 4 1 (.fromEnd 0) = (.ok (4 : Int), (4 : Int)) :=
  (chdSeek_ranges 4 1 (by norm_num) (by norm_num) (by norm_num)).2.2.2.2.2.2.1

/-- C9: if `seek` returns an error, the logical position is unchanged; in
particular a subsequent `Current 0` seek from a valid position still
returns that same position. -/
theorem chdSeek_error_preserves_pos (sizeU : Nat) (pos : Int) (sf : SeekFromM)
    (hsU : sizeU < 2 ^ 64)
    (herr : exceptIsOk (chdSeek sizeU pos sf).1 = false) :
    (chdSeek sizeU pos sf).2 = pos
    ∧ (0 ≤ pos → pos ≤ toI64 sizeU →
        chdSeek sizeU ((chdSeek sizeU pos sf).2) (.current 0) = (.ok pos, pos)) := by
  have hsnd : (chdSeek sizeU pos sf).2 = pos := by
    unfold chdSeek at herr ⊢
    rcases sf with x | x | x
    · simp only at herr ⊢
      by_cases h : toI64 x < 0 ∨ toI64 x > toI64 sizeU
      · rw [if_pos h]
      · rw [if_neg h] at herr
        simp [exceptIsOk] at herr
    · simp only at herr ⊢
      cases hadd : checkedAddI64 pos x with
      | none => simp [hadd]
      | some xx =>
        simp only [hadd] at herr ⊢
        by_cases h : xx < 0 ∨ xx > toI64 sizeU
        · rw [if_pos h]
        · rw [if_neg h] at herr
          simp [exceptIsOk] at herr
    · simp only at herr ⊢
      cases hadd : checkedAddI64 (toI64 sizeU) x with
      | none => simp [hadd]
      | some xx =>
        simp only [hadd] at herr ⊢
        by_cases h : xx < 0 ∨ xx > toI64 sizeU
        · rw [if_pos h]
        · rw [if_neg h] at herr
          simp [exceptIsOk] at herr
  refine ⟨hsnd, ?_⟩
  intro h0 h1
  rw [hsnd]
  have hbound := toI64_lt_of_u64 sizeU hsU
  have hadd : checkedAddI64 pos 0 = some pos := by
    unfold checkedAddI64
    rw [if_pos (by constructor <;> omega)]
    rw [add_zero]
  simp only [chdSeek, hadd]
  rw [if_neg (by omega)]

/-- Witness for `chdSeek_error_preserves_pos`: an out-of-range seek from
position 1 of a reader of logical size 4 leaves the position at 1. -/
theorem chdSeek_error_preserves_pos_wit :
    (chdSeek 4 1 (.start 9)).2 = 1
    ∧ ((0 : Int) ≤ 1 → (1 : Int) ≤ toI64 4 →
        chdSeek 4 ((chdSeek 4 1 (.start 9)).2) (.current 0) = (.ok 1, 1)) :=
  chdSeek_error_preserves_pos 4 1 (.start 9) (by norm_num) (by decide)

/-- Embedding of `Chd::set_parent` (src/lib.rs:484-494).  `parentsha1` is
the child header's 20-byte `parentsha1`, `psha1` the candidate parent's
`sha1`, `cur` the child's current parent field, `p` stands for the parent
value being moved in.  Returns the result together with the parent field
after the call. -/
def setParent (parentsha1 psha1 : List Nat) (cur : Option α) (p : α) :
    Except String Unit × Option α :=
  if psha1 ≠ parentsha1 then
    (.error "wrong parent sha1", cur)
  else
    (.ok (), some p)

/-- C8: `set_parent` succeeds and installs the parent exactly when the
parent's `sha1` equals the child's `parentsha1`; on mismatch it errors and
the parent field is unchanged. -/
theorem setParent_iff_sha1 (parentsha1 psha1 : List Nat) (cur : Option α) (p : α) :
    (exceptIsOk (setParent parentsha1 psha1 cur p).1 = true ↔ psha1 = parentsha1)
    ∧ (psha1 = parentsha1 → setParent parentsha1 psha1 cur p = (.ok (), some p))
    ∧ (psha1 ≠ parentsha1 → (setParent parentsha1 psha1 cur p).2 = cur) := by
  unfold setParent
  by_cases h : psha1 = parentsha1
  · rw [if_neg (by simpa using h)]
    exact ⟨by simp [exceptIsOk, h], fun _ => rfl, fun hc => absurd h hc⟩
  · rw [if_pos (by simpa using h)]
    exact ⟨by simp [exceptIsOk, h], fun hc => absurd hc h, fun _ => rfl⟩

/-- Witness for `setParent_iff_sha1`: matching sha1 installs the parent,
a mismatching one leaves the field empty. -/
theorem setParent_iff_sha1_wit :
    ((exceptIsOk (setParent [1, 2] [1, 2] (none : Option Nat) 7).1 = true ↔
        ([1, 2] : List Nat) = [1, 2])
      ∧ (([1, 2] : List Nat) = [1, 2] →
          setParent [1, 2] [1, 2] (none : Option Nat) 7 = (.ok (), some 7))
      ∧ (([1, 2] : List Nat) ≠ [1, 2] →
          (setParent [1, 2] [1, 2] (none : Option Nat) 7).2 = none))
    ∧ (setParent [1, 2] [3, 4] (none : Option Nat) 7).2 = none :=
  ⟨setParent_iff_sha1 [1, 2] [1, 2] none 7,
    (setParent_iff_sha1 [1, 2] [3, 4] none 7).2.2 (by decide)⟩

/-- Output sample endianness selected by the first byte of a FLAC hunk. -/
inductive FlacEndian where
  | little
  | big
deriving DecidableEq

/-- Embedding of the first step of `<Flac as Decompress>::decompress`
(src/decompress.rs:180-190): the `src[0]` access and the match selecting
`write_le16` (`b'L'` = 76), `write_be16` (`b'B'` = 66) or the
invalid-endianness error.  `none` models the out-of-bounds panic of
`src[0]` on an empty slice; `some r` the checked dispatch. -/
def flacSelectEndian (src : List Nat) : Option (Except String FlacEndian) :=
  match src with
  | [] => none
  | b :: _ =>
    some (if b = 76 then .ok .little
      else if b = 66 then .ok .big
      else .error "flac: invalid hunk endianness")

/-- Embedding of the compressed-input buffer constructed by
`decompress_hunk` (src/lib.rs:376-393): `vec![0; length]` filled by
`read_at` with the map entry's `complength` bytes; with `complength = 0`
the codec receives the empty slice. -/
def decompressHunkSrc (fileBytes : Nat → Nat) (offset length : Nat) : List Nat :=
  (List.range length).map fun i => fileBytes (offset + i)

/-- C10: the FLAC codec reads `src[0]` without an emptiness check: every
non-empty `src` dispatches in bounds on 'L'/'B'/other, while the empty
`src` — exactly what `decompress_hunk` passes for a map entry of
`complength` 0 — hits an out-of-bounds access instead of the documented
invalid-endianness error. -/
theorem flacSelectEndian_head (src : List Nat) :
    ((flacSelectEndian src).isSome = true ↔ src ≠ [])
    ∧ (∀ b rest, src = b :: rest →
        flacSelectEndian src = some (if b = 76 then .ok .little
          else if b = 66 then .ok .big
          else .error "flac: invalid hunk endianness"))
    ∧ (∀ fileBytes offset,
        flacSelectEndian (decompressHunkSrc fileBytes offset 0) = none) := by
  refine ⟨?_, ?_, ?_⟩
  · cases src with
    | nil => simp [flacSelectEndian]
    | cons b rest => simp [flacSelectEndian]
  · intro b rest h
    subst h
    rfl
  · intro fileBytes offset
    rfl

/-- Witness for `flacSelectEndian_head` at `src = [66]`. -/
theorem flacSelectEndian_head_wit :
    flacSelectEndian [66] = some (if 66 = 76 then .ok .little
      else if (66 : Nat) = 66 then .ok FlacEndian.big
      else .error "flac: invalid hunk endianness") :=
  (flacSelectEndian_head [66]).2.1 66 [] rfl

/-- Embedding of `<Inflate as Decompress>::decompress`
(src/decompress.rs:108-114).  The external `inflate` crate is not part of
the repository; `w src destLen` abstracts `InflateWriter::write(&src)`
over a destination of length `destLen`, returning the count of consumed
bytes as `io::Write::write` does.  The adapter merely forwards the error
and discards the count: `inflate.write(&src)?; Ok(())`. -/
def inflateDecompress (w : List Nat → Nat → Except String Nat)
    (src : List Nat) (destLen : Nat) : Except String Unit :=
  match w src destLen with
  | .ok _ => .ok ()
  | .error e => .error e

/-- C7 (code evidence): the Zlib adapter performs no completeness check,
so whenever the underlying writer accepts the input — as any
`io::Write::write` does for the empty slice, producing zero decompressed
bytes — `decompress` succeeds even though fewer than `destLen` bytes were
inflated. -/
theorem inflateDecompress_no_length_check
    (w : List Nat → Nat → Except String Nat) (destLen : Nat)
    (hw : w [] destLen = .ok 0) :
    inflateDecompress w [] destLen = .ok () := by
  unfold inflateDecompress
  rw [hw]

/-- Witness for `inflateDecompress_no_length_check` with a writer that
consumes the empty input: the adapter reports success for a destination
of length 1 that received no bytes. -/
theorem inflateDecompress_no_length_check_wit :
    inflateDecompress (fun _ _ => .ok 0) [] 1 = .ok () :=
  inflateDecompress_no_length_check (fun _ _ => .ok 0) 1 rfl

/-- `read_be16` (src/utils.rs) over a byte list, reading at index `i`. -/
def readBe16L (data : List Nat) (i : Nat) : Nat :=
  (data.getD i 0) <<< 8 ||| data.getD (i + 1) 0

/-- `read_be24` (src/utils.rs) over a byte list, reading at index `i`. -/
def readBe24L (data : List Nat) (i : Nat) : Nat :=
  (data.getD i 0) <<< 16 ||| (data.getD (i + 1) 0) <<< 8 ||| data.getD (i + 2) 0

/-- `read_be32` (src/utils.rs) over a byte list, reading at index `i`. -/
def readBe32L (data : List Nat) (i : Nat) : Nat :=
  (data.getD i 0) <<< 24 ||| (data.getD (i + 1) 0) <<< 16 |||
    (data.getD (i + 2) 0) <<< 8 ||| data.getD (i + 3) 0

/-- `read_be48` (src/utils.rs) over a byte list, reading at index `i`. -/
def readBe48L (data : List Nat) (i : Nat) : Nat :=
  (data.getD i 0) <<< 40 ||| (data.getD (i + 1) 0) <<< 32 |||
    (data.getD (i + 2) 0) <<< 24 ||| (data.getD (i + 3) 0) <<< 16 |||
    (data.getD (i + 4) 0) <<< 8 ||| data.getD (i + 5) 0

/-- `read_be64` (src/utils.rs) over a byte list, reading at index `i`. -/
def readBe64L (data : List Nat) (i : Nat) : Nat :=
  (data.getD i 0) <<< 56 ||| (data.getD (i + 1) 0) <<< 48 |||
    (data.getD (i + 2) 0) <<< 40 ||| (data.getD (i + 3) 0) <<< 32 |||
    (data.getD (i + 4) 0) <<< 24 ||| (data.getD (i + 5) 0) <<< 16 |||
    (data.getD (i + 6) 0) <<< 8 ||| data.getD (i + 7) 0

/-- Parsed V5 header (src/lib.rs:67-84). -/
structure HeaderV5 where
  length : Nat
  version : Nat
  compressors : List Nat
  size : Nat
  mapoffset : Nat
  metaoffset : Nat
  hunkbytes : Nat
  unitbytes : Nat
  rawsha1 : List Nat
  sha1 : List Nat
  parentsha1 : List Nat
  hunkcount : Nat
deriving Repr, DecidableEq

/-- The byte values of the magic string `"MComprHD"`. -/
def magicBytes : List Nat := [77, 67, 111, 109, 112, 114, 72, 68]

/-- Embedding of `Header::read` + `Header::read_header_v5`
(src/lib.rs:87-157) on the 124 header bytes, without the subsequent map
construction.  The `hunkcount` division uses wrapping u64 arithmetic as
Rust release builds do: since `hunkbytes ≥ 1` at that point,
`size + hunkbytes - 1` never underflows and the double wrap equals a
single `% 2 ^ 64`. -/
def headerRead (data : List Nat) : Except String HeaderV5 :=
  if data.take 8 ≠ magicBytes then .error "chd: invalid magic"
  else
    let length := readBe32L data 8
    let version := readBe32L data 12
    if version ≠ 5 then .error "chd: unsupported version"
    else if length ≠ 124 then .error "hdrv5: invalid header length"
    else
      let size := readBe64L data 32
      let hunkbytes := readBe32L data 56
      let unitbytes := readBe32L data 60
      if hunkbytes < 1 ∨ hunkbytes > 512 * 1024 then
        .error "hdrv5: invalid size of hunk"
      else if unitbytes < 1 ∨ hunkbytes < unitbytes ∨ hunkbytes % unitbytes > 0 then
        .error "hdrv5: wrong size of unit"
      else
        let hunkcount := ((size + hunkbytes - 1) % 2 ^ 64) / hunkbytes
        if hunkcount < 2 ^ 32 then
          .ok { length, version,
                compressors := [readBe32L data 16, readBe32L data 20,
                  readBe32L data 24, readBe32L data 28],
                size, mapoffset := readBe64L data 40, metaoffset := readBe64L data 48,
                hunkbytes, unitbytes,
                rawsha1 := (data.drop 64).take 20, sha1 := (data.drop 84).take 20,
                parentsha1 := (data.drop 104).take 20, hunkcount }
        else .error "hdrv5: hunk count is too big"

/-- C5 (amended): the header reader accepts exactly the headers satisfying
the magic/version/length/hunkbytes/unitbytes conditions together with the
wrapping-u64 hunk count `((size + hunkbytes - 1) % 2^64) / hunkbytes`
fitting in 32 bits; an accepted header's `hunkcount` is that wrapped
value, which equals `⌈size / hunkbytes⌉` whenever `size + hunkbytes - 1`
does not overflow u64. -/
theorem headerRead_accepts_iff (data : List Nat) :
    (exceptIsOk (headerRead data) = true ↔
      (data.take 8 = magicBytes
        ∧ readBe32L data 12 = 5
        ∧ readBe32L data 8 = 124
        ∧ 1 ≤ readBe32L data 56 ∧ readBe32L data 56 ≤ 524288
        ∧ 1 ≤ readBe32L data 60 ∧ readBe32L data 60 ≤ readBe32L data 56
        ∧ readBe32L data 56 % readBe32L data 60 = 0
        ∧ ((readBe64L data 32 + readBe32L data 56 - 1) % 2 ^ 64) /
            readBe32L data 56 < 2 ^ 32))
    ∧ (∀ h, headerRead data = .ok h →
        h.hunkcount = ((readBe64L data 32 + readBe32L data 56 - 1) % 2 ^ 64) /
            readBe32L data 56
        ∧ (readBe64L data 32 + readBe32L data 56 - 1 < 2 ^ 64 →
            h.hunkcount = readBe64L data 32 ⌈/⌉ readBe32L data 56)) := by
  unfold headerRead
  by_cases hm : data.take 8 = magicBytes
  case neg =>
    rw [if_pos (by simpa using hm)]
    exact ⟨by simp [exceptIsOk, hm], fun h hc => by cases hc⟩
  rw [if_neg (by simpa using hm)]
  by_cases hv : readBe32L data 12 = 5
  case neg =>
    rw [if_pos (by simpa using hv)]
    exact ⟨by simp [exceptIsOk, hm, hv], fun h hc => by cases hc⟩
  rw [if_neg (by simpa using hv)]
  by_cases hl : readBe32L data 8 = 124
  case neg =>
    rw [if_pos (by simpa using hl)]
    exact ⟨by simp [exceptIsOk, hm, hv, hl], fun h hc => by cases hc⟩
  rw [if_neg (by simpa using hl)]
  simp only
  by_cases hh : readBe32L data 56 < 1 ∨ readBe32L data 56 > 512 * 1024
  case pos =>
    rw [if_pos hh]
    refine ⟨by simp [exceptIsOk]; omega, fun h hc => by cases hc⟩
  rw [if_neg hh]
  by_cases hu : readBe32L data 60 < 1 ∨ readBe32L data 56 < readBe32L data 60
      ∨ readBe32L data 56 % readBe32L data 60 > 0
  case pos =>
    rw [if_pos hu]
    refine ⟨by simp [exceptIsOk]; omega, fun h hc => by cases hc⟩
  rw [if_neg hu]
  by_cases hc : ((readBe64L data 32 + readBe32L data 56 - 1) % 2 ^ 64) /
      readBe32L data 56 < 2 ^ 32
  case neg =>
    rw [if_neg hc]
    refine ⟨⟨fun hfalse => by simp [exceptIsOk] at hfalse,
      fun hcond => absurd hcond.2.2.2.2.2.2.2.2 hc⟩, fun h hcon => by cases hcon⟩
  rw [if_pos hc]
  constructor
  · simp only [exceptIsOk]
    constructor
    · intro
      refine ⟨hm, hv, hl, by omega, by omega, by omega, by omega, by omega, hc⟩
    · intro
      trivial
  · intro h hok
    have hh1 : h.hunkcount = ((readBe64L data 32 + readBe32L data 56 - 1) % 2 ^ 64) /
        readBe32L data 56 := by
      cases hok
      rfl
    refine ⟨hh1, fun hnof => ?_⟩
    rw [hh1, Nat.mod_eq_of_lt hnof]
    rfl

/-- A 124-byte V5 header whose `size` is `2 ^ 64 - 1` with
`hunkbytes = 4096`, `unitbytes = 512`: the u64 computation
`size + hunkbytes - 1` wraps around. -/
def overflowHeaderBytes : List Nat :=
  magicBytes ++ [0, 0, 0, 124] ++ [0, 0, 0, 5]
    ++ List.replicate 16 0
    ++ List.replicate 8 255
    ++ List.replicate 16 0
    ++ [0, 0, 16, 0] ++ [0, 0, 2, 0]
    ++ List.replicate 60 0

/-- C5 counterexample: the claim says a header whose `⌈size/hunkbytes⌉`
does not fit in 32 bits is rejected, but with `size = 2 ^ 64 - 1` and
`hunkbytes = 4096` the wrapping computation accepts the header with
`hunkcount = 0`, although the true ceiling is at least `2 ^ 32`. -/
theorem headerRead_overflow_cex :
    exceptIsOk (headerRead overflowHeaderBytes) = true
    ∧ (headerRead overflowHeaderBytes).map HeaderV5.hunkcount = .ok 0
    ∧ 2 ^ 32 ≤ readBe64L overflowHeaderBytes 32 ⌈/⌉ readBe32L overflowHeaderBytes 56 :=
  ⟨rfl, rfl, by decide⟩

/-- A well-formed 124-byte V5 header: `size = 44267`, `hunkbytes = 4096`,
`unitbytes = 512` (the fixture shape of the repository's tests). -/
def validHeaderBytes : List Nat :=
  magicBytes ++ [0, 0, 0, 124] ++ [0, 0, 0, 5]
    ++ List.replicate 16 0
    ++ [0, 0, 0, 0, 0, 0, 172, 235]
    ++ List.replicate 16 0
    ++ [0, 0, 16, 0] ++ [0, 0, 2, 0]
    ++ List.replicate 60 0

/-- The header parsed from `validHeaderBytes`. -/
def validHeaderParsed : HeaderV5 :=
  { length := 124, version := 5, compressors := [0, 0, 0, 0], size := 44267,
    mapoffset := 0, metaoffset := 0, hunkbytes := 4096, unitbytes := 512,
    rawsha1 := List.replicate 20 0, sha1 := List.replicate 20 0,
    parentsha1 := List.replicate 20 0, hunkcount := 11 }

/-- Witness for `headerRead_accepts_iff` on a concrete valid header. -/
theorem headerRead_accepts_iff_wit :
    validHeaderParsed.hunkcount
      = ((readBe64L validHeaderBytes 32 + readBe32L validHeaderBytes 56 - 1) % 2 ^ 64)
          / readBe32L validHeaderBytes 56
    ∧ validHeaderParsed.hunkcount
      = readBe64L validHeaderBytes 32 ⌈/⌉ readBe32L validHeaderBytes 56 :=
  have hok : headerRead validHeaderBytes = .ok validHeaderParsed := rfl
  have h2 := (headerRead_accepts_iff validHeaderBytes).2 validHeaderParsed hok
  ⟨h2.1, h2.2 (by decide)⟩

/-- Embedding of pass 1 of `CompressedMap5::decompress`
(src/lib.rs:243-264), the per-hunk compression-type decoding loop.
Modelled from the spec: `huffman.rs` and `bitstream.rs` are not under
`src/`, so `huffman.decode_one(&mut bits)` is abstracted as consuming the
head of a symbol list (`headI`, defaulting to 0 past the end, matching
the bit reader's zero-on-overflow semantics).  The `as u8` cast is the
`% 256`; `repcount` is a u32, hence the `% 2 ^ 32` masks.  Arguments:
remaining hunk count, `lastcomp`, `repcount`, symbol stream; result: the
list of stored compression bytes. -/
def mapPass1 : Nat → Nat → Nat → List Nat → List Nat
  | 0, _, _, _ => []
  | n + 1, lastcomp, repcount, syms =>
    if 0 < repcount then
      lastcomp :: mapPass1 n lastcomp (repcount - 1) syms
    else if syms.headI % 256 = 7 then
      lastcomp :: mapPass1 n lastcomp ((2 + syms.tail.headI) % 2 ^ 32) syms.tail.tail
    else if syms.headI % 256 = 8 then
      lastcomp :: mapPass1 n lastcomp
        (((2 + 16 + (syms.tail.headI <<< 4) % 2 ^ 32) % 2 ^ 32
            + syms.tail.tail.headI) % 2 ^ 32)
        syms.tail.tail.tail
    else
      (syms.headI % 256) :: mapPass1 n (syms.headI % 256) 0 syms.tail

theorem mapPass1_succ (n c r : Nat) (syms : List Nat) :
    mapPass1 (n + 1) c r syms =
      if 0 < r then
        c :: mapPass1 n c (r - 1) syms
      else if syms.headI % 256 = 7 then
        c :: mapPass1 n c ((2 + syms.tail.headI) % 2 ^ 32) syms.tail.tail
      else if syms.headI % 256 = 8 then
        c :: mapPass1 n c
          (((2 + 16 + (syms.tail.headI <<< 4) % 2 ^ 32) % 2 ^ 32
              + syms.tail.tail.headI) % 2 ^ 32)
          syms.tail.tail.tail
      else
        (syms.headI % 256) :: mapPass1 n (syms.headI % 256) 0 syms.tail := rfl

/-- While `repcount > 0` the loop emits `lastcomp` and decrements, without
touching the symbol stream. -/
theorem mapPass1_repcount (m : Nat) :
    ∀ k c syms, mapPass1 (m + k) c m syms
      = List.replicate m c ++ mapPass1 k c 0 syms := by
  induction m with
  | zero =>
    intro k c syms
    simp
  | succ m ih =>
    intro k c syms
    have e : m + 1 + k = (m + k) + 1 := by omega
    rw [e, mapPass1_succ]
    rw [if_pos (by omega)]
    simp only [Nat.add_sub_cancel]
    rw [ih k c syms]
    rfl

/-- C3: a non-RLE symbol `v` becomes the new `lastcomp` and is stored;
`RLE_SMALL` (7) consumes one further symbol `n` and causes `2 + n` extra
repeats of the unchanged `lastcomp` (on top of the run-starting entry),
`RLE_LARGE` (8) consumes two further symbols `a`, `b` and causes
`2 + 16 + (a <<< 4) + b` extra repeats; every stored byte is the current
`lastcomp`. -/
theorem mapPass1_rle (c v k : Nat) (rest : List Nat)
    (hv7 : v % 256 ≠ 7) (hv8 : v % 256 ≠ 8) :
    (∀ n, n < 16 →
      mapPass1 (4 + n + k) c 0 (v :: 7 :: n :: rest)
        = List.replicate (4 + n) (v % 256) ++ mapPass1 k (v % 256) 0 rest)
    ∧ (∀ a b, a < 16 → b < 16 →
      mapPass1 (20 + 16 * a + b + k) c 0 (v :: 8 :: a :: b :: rest)
        = List.replicate (20 + 16 * a + b) (v % 256) ++ mapPass1 k (v % 256) 0 rest) := by
  constructor
  · intro n hn
    have e1 : 4 + n + k = (3 + n + k) + 1 := by omega
    rw [e1, mapPass1_succ]
    rw [if_neg (by omega)]
    simp only [List.headI, List.tail_cons]
    rw [if_neg hv7, if_neg hv8]
    have e2 : 3 + n + k = (2 + n + k) + 1 := by omega
    rw [e2, mapPass1_succ]
    rw [if_neg (by omega)]
    simp only [List.headI, List.tail_cons]
    rw [if_pos (by norm_num)]
    have e3 : (2 + n) % 2 ^ 32 = 2 + n := Nat.mod_eq_of_lt (by omega)
    rw [e3]
    have e4 : 2 + n + k = (2 + n) + k := by omega
    rw [e4, mapPass1_repcount (2 + n) k (v % 256) rest]
    have e5 : 4 + n = ((2 + n) + 1) + 1 := by omega
    rw [e5, List.replicate_succ, List.replicate_succ]
    rfl
  · intro a b ha hb
    have e1 : 20 + 16 * a + b + k = (19 + 16 * a + b + k) + 1 := by omega
    rw [e1, mapPass1_succ]
    rw [if_neg (by omega)]
    simp only [List.headI, List.tail_cons]
    rw [if_neg hv7, if_neg hv8]
    have e2 : 19 + 16 * a + b + k = (18 + 16 * a + b + k) + 1 := by omega
    rw [e2, mapPass1_succ]
    rw [if_neg (by omega)]
    simp only [List.headI, List.tail_cons]
    rw [if_neg (by norm_num), if_pos (by norm_num)]
    have ea : (a <<< 4) % 2 ^ 32 = 16 * a := by
      rw [Nat.shiftLeft_eq, Nat.mod_eq_of_lt (by norm_num; omega)]
      omega
    rw [ea]
    have e3 : (2 + 16 + 16 * a) % 2 ^ 32 = 18 + 16 * a := by
      rw [Nat.mod_eq_of_lt (by omega)]
    rw [e3]
    have e4 : (18 + 16 * a + b) % 2 ^ 32 = 18 + 16 * a + b := Nat.mod_eq_of_lt (by omega)
    rw [e4]
    have e5 : 18 + 16 * a + b + k = (18 + 16 * a + b) + k := by omega
    rw [e5, mapPass1_repcount (18 + 16 * a + b) k (v % 256) rest]
    have e6 : 20 + 16 * a + b = ((18 + 16 * a + b) + 1) + 1 := by omega
    rw [e6, List.replicate_succ, List.replicate_succ]
    rfl

/-- Witness for `mapPass1_rle` at `c = 0`, `v = 1`, `n = 0`, `a = b = 0`. -/
theorem mapPass1_rle_wit :
    mapPass1 4 0 0 [1, 7, 0] = List.replicate 4 (1 % 256) ++ mapPass1 0 (1 % 256) 0 []
    ∧ mapPass1 20 0 0 [1, 8, 0, 0]
      = List.replicate 20 (1 % 256) ++ mapPass1 0 (1 % 256) 0 [] :=
  ⟨(mapPass1_rle 0 1 0 [] (by decide) (by decide)).1 0 (by decide),
    (mapPass1_rle 0 1 0 [] (by decide) (by decide)).2 0 0 (by decide) (by decide)⟩

/-- One decoded 12-byte map record of `CompressedMap5`
(src/lib.rs:209-219): compression byte, u24 `complength`, u48 `offset`,
u16 `crc`, as written back by `write_be24`/`write_be48`/`write_be16`. -/
structure MapEntry where
  compression : Nat
  complength : Nat
  offset : Nat
  crc : Nat
deriving Repr, DecidableEq

/-- Embedding of pass 2 of `CompressedMap5::decompress`
(src/lib.rs:266-329), the per-hunk offset/length/crc extraction.
Modelled from the spec: `bitstream.rs` is not under `src/`, so each
`bits.read(n)` is abstracted as consuming the head of the `reads` list
masked to its `n`-bit width.  State threaded exactly as in the source:
`curoffset` (u64, seeded from the map header's `firstoffset`), `lastself`
and `lastparent` (u64); `% 2 ^ 64` marks the u64 wrapping points.  The
`c = 11` division `hunknum * hunkbytes / unitbytes` is Nat division
(`unitbytes ≥ 1` for every validated header). -/
def mapPass2 (hb ub lengthbits hunkbits parentbits : Nat) :
    List Nat → Nat → Nat → Nat → Nat → List Nat → Except String (List MapEntry)
  | [], _, _, _, _, _ => .ok []
  | c :: cs, hunknum, curoffset, lastself, lastparent, reads =>
    if c ≤ 3 then
      (mapPass2 hb ub lengthbits hunkbits parentbits cs (hunknum + 1)
          ((curoffset + reads.headI % 2 ^ lengthbits) % 2 ^ 64) lastself lastparent
          reads.tail.tail).map
        (⟨c, (reads.headI % 2 ^ lengthbits) % 2 ^ 24, curoffset % 2 ^ 48,
          (reads.tail.headI % 2 ^ 16) % 2 ^ 16⟩ :: ·)
    else if c = 4 then
      (mapPass2 hb ub lengthbits hunkbits parentbits cs (hunknum + 1)
          ((curoffset + hb) % 2 ^ 64) lastself lastparent reads.tail).map
        (⟨4, hb % 2 ^ 24, curoffset % 2 ^ 48, (reads.headI % 2 ^ 16) % 2 ^ 16⟩ :: ·)
    else if c = 5 then
      (mapPass2 hb ub lengthbits hunkbits parentbits cs (hunknum + 1)
          curoffset (reads.headI % 2 ^ hunkbits) lastparent reads.tail).map
        (⟨5, 0, (reads.headI % 2 ^ hunkbits) % 2 ^ 48, 0⟩ :: ·)
    else if c = 6 then
      (mapPass2 hb ub lengthbits hunkbits parentbits cs (hunknum + 1)
          curoffset lastself (reads.headI % 2 ^ parentbits) reads.tail).map
        (⟨6, 0, (reads.headI % 2 ^ parentbits) % 2 ^ 48, 0⟩ :: ·)
    else if c = 9 ∨ c = 10 then
      (mapPass2 hb ub lengthbits hunkbits parentbits cs (hunknum + 1)
          curoffset ((lastself + (c - 9)) % 2 ^ 64) lastparent reads).map
        (⟨5, 0, ((lastself + (c - 9)) % 2 ^ 64) % 2 ^ 48, 0⟩ :: ·)
    else if c = 11 then
      (mapPass2 hb ub lengthbits hunkbits parentbits cs (hunknum + 1)
          curoffset lastself (hunknum * hb % 2 ^ 64 / ub) reads).map
        (⟨6, 0, (hunknum * hb % 2 ^ 64 / ub) % 2 ^ 48, 0⟩ :: ·)
    else if c = 12 ∨ c = 13 then
      (mapPass2 hb ub lengthbits hunkbits parentbits cs (hunknum + 1)
          curoffset lastself
          (if c = 13 then (lastparent + hb / ub) % 2 ^ 64 else lastparent) reads).map
        (⟨6, 0, (if c = 13 then (lastparent + hb / ub) % 2 ^ 64 else lastparent) % 2 ^ 48,
          0⟩ :: ·)
    else
      .error "chdv5: unknown hunk compression type"

theorem mapPass2_cons (hb ub lb hkb pb c : Nat) (cs : List Nat)
    (hunknum cur ls lp : Nat) (reads : List Nat) :
    mapPass2 hb ub lb hkb pb (c :: cs) hunknum cur ls lp reads =
      if c ≤ 3 then
        (mapPass2 hb ub lb hkb pb cs (hunknum + 1)
            ((cur + reads.headI % 2 ^ lb) % 2 ^ 64) ls lp reads.tail.tail).map
          (⟨c, (reads.headI % 2 ^ lb) % 2 ^ 24, cur % 2 ^ 48,
            (reads.tail.headI % 2 ^ 16) % 2 ^ 16⟩ :: ·)
      else if c = 4 then
        (mapPass2 hb ub lb hkb pb cs (hunknum + 1)
            ((cur + hb) % 2 ^ 64) ls lp reads.tail).map
          (⟨4, hb % 2 ^ 24, cur % 2 ^ 48, (reads.headI % 2 ^ 16) % 2 ^ 16⟩ :: ·)
      else if c = 5 then
        (mapPass2 hb ub lb hkb pb cs (hunknum + 1)
            cur (reads.headI % 2 ^ hkb) lp reads.tail).map
          (⟨5, 0, (reads.headI % 2 ^ hkb) % 2 ^ 48, 0⟩ :: ·)
      else if c = 6 then
        (mapPass2 hb ub lb hkb pb cs (hunknum + 1)
            cur ls (reads.headI % 2 ^ pb) reads.tail).map
          (⟨6, 0, (reads.headI % 2 ^ pb) % 2 ^ 48, 0⟩ :: ·)
      else if c = 9 ∨ c = 10 then
        (mapPass2 hb ub lb hkb pb cs (hunknum + 1)
            cur ((ls + (c - 9)) % 2 ^ 64) lp reads).map
          (⟨5, 0, ((ls + (c - 9)) % 2 ^ 64) % 2 ^ 48, 0⟩ :: ·)
      else if c = 11 then
        (mapPass2 hb ub lb hkb pb cs (hunknum + 1)
            cur ls (hunknum * hb % 2 ^ 64 / ub) reads).map
          (⟨6, 0, (hunknum * hb % 2 ^ 64 / ub) % 2 ^ 48, 0⟩ :: ·)
      else if c = 12 ∨ c = 13 then
        (mapPass2 hb ub lb hkb pb cs (hunknum + 1)
            cur ls (if c = 13 then (lp + hb / ub) % 2 ^ 64 else lp) reads).map
          (⟨6, 0, (if c = 13 then (lp + hb / ub) % 2 ^ 64 else lp) % 2 ^ 48, 0⟩ :: ·)
      else
        .error "chdv5: unknown hunk compression type" := rfl

theorem exceptMap_cons_ok {X : Except String (List MapEntry)} {e : MapEntry}
    {entries : List MapEntry} (h : X.map (e :: ·) = .ok entries) :
    ∃ es, X = .ok es ∧ entries = e :: es := by
  cases X with
  | ok a =>
    refine ⟨a, rfl, ?_⟩
    simp only [Except.map] at h
    injection h with h'
    exact h'.symm
  | error s => simp [Except.map] at h

/-- C2: pass 2 processes each hunk by type — `0..=3` read `lengthbits`
bits as length, take the running cursor as offset, advance the cursor and
read a 16-bit crc; `NONE` does the same with `length = hunkbytes`;
`SELF`/`PARENT` read `hunkbits`/`parentbits` bits as offset (recording
`lastself`/`lastparent`) with length 0 and crc 0; `SELF_0`/`SELF_1`
resolve to `SELF` at `lastself + 0/1`; `PARENT_SELF` resolves to `PARENT`
at `hunknum * hunkbytes / unitbytes`; `PARENT_0`/`PARENT_1` resolve to
`PARENT` at `lastparent`, `PARENT_1` first adding
`hunkbytes / unitbytes`; any other type is rejected; and every stored
record carries one of the seven resolved kinds only. -/
theorem mapPass2_spec (hb ub lb hkb pb : Nat) :
    (∀ cs hunknum cur ls lp reads entries,
      mapPass2 hb ub lb hkb pb cs hunknum cur ls lp reads = .ok entries →
      ∀ e ∈ entries, e.compression ≤ 6)
    ∧ (∀ c cs hunknum cur ls lp reads, c ≤ 3 →
      mapPass2 hb ub lb hkb pb (c :: cs) hunknum cur ls lp reads
        = (mapPass2 hb ub lb hkb pb cs (hunknum + 1)
            ((cur + reads.headI % 2 ^ lb) % 2 ^ 64) ls lp reads.tail.tail).map
          (⟨c, (reads.headI % 2 ^ lb) % 2 ^ 24, cur % 2 ^ 48,
            (reads.tail.headI % 2 ^ 16) % 2 ^ 16⟩ :: ·))
    ∧ (∀ cs hunknum cur ls lp reads,
      mapPass2 hb ub lb hkb pb (4 :: cs) hunknum cur ls lp reads
        = (mapPass2 hb ub lb hkb pb cs (hunknum + 1)
            ((cur + hb) % 2 ^ 64) ls lp reads.tail).map
          (⟨4, hb % 2 ^ 24, cur % 2 ^ 48, (reads.headI % 2 ^ 16) % 2 ^ 16⟩ :: ·))
    ∧ (∀ cs hunknum cur ls lp reads,
      mapPass2 hb ub lb hkb pb (5 :: cs) hunknum cur ls lp reads
        = (mapPass2 hb ub lb hkb pb cs (hunknum + 1)
            cur (reads.headI % 2 ^ hkb) lp reads.tail).map
          (⟨5, 0, (reads.headI % 2 ^ hkb) % 2 ^ 48, 0⟩ :: ·))
    ∧ (∀ cs hunknum cur ls lp reads,
      mapPass2 hb ub lb hkb pb (6 :: cs) hunknum cur ls lp reads
        = (mapPass2 hb ub lb hkb pb cs (hunknum + 1)
            cur ls (reads.headI % 2 ^ pb) reads.tail).map
          (⟨6, 0, (reads.headI % 2 ^ pb) % 2 ^ 48, 0⟩ :: ·))
    ∧ (∀ c cs hunknum cur ls lp reads, c = 9 ∨ c = 10 →
      mapPass2 hb ub lb hkb pb (c :: cs) hunknum cur ls lp reads
        = (mapPass2 hb ub lb hkb pb cs (hunknum + 1)
            cur ((ls + (c - 9)) % 2 ^ 64) lp reads).map
          (⟨5, 0, ((ls + (c - 9)) % 2 ^ 64) % 2 ^ 48, 0⟩ :: ·))
    ∧ (∀ cs hunknum cur ls lp reads,
      mapPass2 hb ub lb hkb pb (11 :: cs) hunknum cur ls lp reads
        = (mapPass2 hb ub lb hkb pb cs (hunknum + 1)
            cur ls (hunknum * hb % 2 ^ 64 / ub) reads).map
          (⟨6, 0, (hunknum * hb % 2 ^ 64 / ub) % 2 ^ 48, 0⟩ :: ·))
    ∧ (∀ c cs hunknum cur ls lp reads, c = 12 ∨ c = 13 →
      mapPass2 hb ub lb hkb pb (c :: cs) hunknum cur ls lp reads
        = (mapPass2 hb ub lb hkb pb cs (hunknum + 1)
            cur ls (if c = 13 then (lp + hb / ub) % 2 ^ 64 else lp) reads).map
          (⟨6, 0, (if c = 13 then (lp + hb / ub) % 2 ^ 64 else lp) % 2 ^ 48, 0⟩ :: ·))
    ∧ (∀ c cs hunknum cur ls lp reads, c = 7 ∨ c = 8 ∨ 14 ≤ c →
      mapPass2 hb ub lb hkb pb (c :: cs) hunknum cur ls lp reads
        = .error "chdv5: unknown hunk compression type") := by
  refine ⟨?_, ?_, ?_, ?_, ?_, ?_, ?_, ?_, ?_⟩
  · intro cs
    induction cs with
    | nil =>
      intro hunknum cur ls lp reads entries h e he
      injection h with h'
      rw [← h'] at he
      cases he
    | cons c cs ih =>
      intro hunknum cur ls lp reads entries h e he
      rw [mapPass2_cons] at h
      split_ifs at h with h0 h4 h5 h6 h910 h11 h1213 h13
      case _ =>
        obtain ⟨es, hes, hent⟩ := exceptMap_cons_ok h
        subst hent
        cases he with
        | head => show c ≤ 6; omega
        | tail _ hmem => exact ih _ _ _ _ _ es hes e hmem
      case _ =>
        obtain ⟨es, hes, hent⟩ := exceptMap_cons_ok h
        subst hent
        cases he with
        | head => show (4 : Nat) ≤ 6; omega
        | tail _ hmem => exact ih _ _ _ _ _ es hes e hmem
      case _ =>
        obtain ⟨es, hes, hent⟩ := exceptMap_cons_ok h
        subst hent
        cases he with
        | head => show (5 : Nat) ≤ 6; omega
        | tail _ hmem => exact ih _ _ _ _ _ es hes e hmem
      case _ =>
        obtain ⟨es, hes, hent⟩ := exceptMap_cons_ok h
        subst hent
        cases he with
        | head => show (6 : Nat) ≤ 6; omega
        | tail _ hmem => exact ih _ _ _ _ _ es hes e hmem
      case _ =>
        obtain ⟨es, hes, hent⟩ := exceptMap_cons_ok h
        subst hent
        cases he with
        | head => show (5 : Nat) ≤ 6; omega
        | tail _ hmem => exact ih _ _ _ _ _ es hes e hmem
      case _ =>
        obtain ⟨es, hes, hent⟩ := exceptMap_cons_ok h
        subst hent
        cases he with
        | head => show (6 : Nat) ≤ 6; omega
        | tail _ hmem => exact ih _ _ _ _ _ es hes e hmem
      case _ =>
        obtain ⟨es, hes, hent⟩ := exceptMap_cons_ok h
        subst hent
        cases he with
        | head => show (6 : Nat) ≤ 6; omega
        | tail _ hmem => exact ih _ _ _ _ _ es hes e hmem
      case _ =>
        obtain ⟨es, hes, hent⟩ := exceptMap_cons_ok h
        subst hent
        cases he with
        | head => show (6 : Nat) ≤ 6; omega
        | tail _ hmem => exact ih _ _ _ _ _ es hes e hmem
  · intro c cs hunknum cur ls lp reads hc
    rw [mapPass2_cons, if_pos hc]
  · intro cs hunknum cur ls lp reads
    rw [mapPass2_cons]
    rw [if_neg (by omega), if_pos rfl]
  · intro cs hunknum cur ls lp reads
    rw [mapPass2_cons]
    rw [if_neg (by omega), if_neg (by omega), if_pos rfl]
  · intro cs hunknum cur ls lp reads
    rw [mapPass2_cons]
    rw [if_neg (by omega), if_neg (by omega), if_neg (by omega), if_pos rfl]
  · intro c cs hunknum cur ls lp reads hc
    rw [mapPass2_cons]
    rw [if_neg (by omega), if_neg (by omega), if_neg (by omega), if_neg (by omega),
      if_pos hc]
  · intro cs hunknum cur ls lp reads
    rw [mapPass2_cons]
    rw [if_neg (by omega), if_neg (by omega), if_neg (by omega), if_neg (by omega),
      if_neg (by omega), if_pos rfl]
  · intro c cs hunknum cur ls lp reads hc
    rw [mapPass2_cons]
    rw [if_neg (by omega), if_neg (by omega), if_neg (by omega), if_neg (by omega),
      if_neg (by omega), if_neg (by omega), if_pos hc]
  · intro c cs hunknum cur ls lp reads hc
    rw [mapPass2_cons]
    rw [if_neg (by omega), if_neg (by omega), if_neg (by omega), if_neg (by omega),
      if_neg (by omega), if_neg (by omega), if_neg (by omega)]

/-- Witness for `mapPass2_spec`: the record produced for a `PARENT_SELF`
pseudo-type is stored as a resolved kind. -/
theorem mapPass2_spec_wit : (MapEntry.mk 6 0 0 0).compression ≤ 6 :=
  (mapPass2_spec 4096 512 3 4 5).1 [11] 0 0 0 0 [] [⟨6, 0, 0, 0⟩] rfl
    ⟨6, 0, 0, 0⟩ (by simp)

/-- `cd::MAX_SECTOR_DATA` (src/cd.rs). -/
def MAX_SECTOR_DATA : Nat := 2352

/-- `cd::MAX_SUBCODE_DATA` (src/cd.rs). -/
def MAX_SUBCODE_DATA : Nat := 96

/-- `cd::FRAME_SIZE` (src/cd.rs). -/
def FRAME_SIZE : Nat := MAX_SECTOR_DATA + MAX_SUBCODE_DATA

/-- `cd::SYNC_NUM_BYTES` (src/cd.rs). -/
def SYNC_NUM_BYTES : Nat := 12

/-- `cd::SYNC_HEADER` (src/cd.rs). -/
def SYNC_HEADER : List Nat :=
  [0x00, 0xff, 0xff, 0xff, 0xff, 0xff, 0xff, 0xff, 0xff, 0xff, 0xff, 0x00]

/-- The start of the data-codec payload inside a CD hunk's `src`
(src/decompress.rs:228-240): after `⌈F/8⌉` ecc flag bytes and a 2- or
3-byte big-endian length field depending on `dest.len() ≤ u16::MAX`. -/
def cdComprStart (destLen : Nat) : Nat :=
  let frames := destLen / FRAME_SIZE
  let eccBytes := (frames + 7) / 8
  if destLen ≤ 65535 then eccBytes + 2 else eccBytes + 3

/-- The length of the data-codec payload, read as u16 or u24 big-endian
(src/decompress.rs:230-240). -/
def cdComprLen (src : List Nat) (destLen : Nat) : Nat :=
  let frames := destLen / FRAME_SIZE
  let eccBytes := (frames + 7) / 8
  if destLen ≤ 65535 then readBe16L src eccBytes else readBe24L src eccBytes

/-- One reassembled 2448-byte frame of `CdDecompress::decompress`
(src/decompress.rs:254-277): 2352 data bytes and 96 subcode bytes copied
from the staging buffer; when the frame's ecc flag bit in `src` is set,
the sector's first 12 bytes are overwritten with `SYNC_HEADER` and the
sector is passed through ECC generation.  `eccGen` abstracts
`ecc::generate` (`ecc.rs` is not under `src/`; modelled from the spec as
an arbitrary in-place rewrite of the 2352-byte sector). -/
def cdFrameOut (eccGen : List Nat → List Nat) (src buffer : List Nat)
    (subcodeStart i : Nat) : List Nat :=
  let framedata := (buffer.drop (i * MAX_SECTOR_DATA)).take MAX_SECTOR_DATA
  let framesubcode :=
    (buffer.drop (subcodeStart + i * MAX_SUBCODE_DATA)).take MAX_SUBCODE_DATA
  let sector :=
    if src.getD (i / 8) 0 &&& (1 <<< (i % 8)) ≠ 0 then
      eccGen (SYNC_HEADER ++ framedata.drop SYNC_NUM_BYTES)
    else framedata
  sector ++ framesubcode

/-- Embedding of `CdDecompress::decompress` (src/decompress.rs:227-279).
`baseD` and `subD` abstract the two inner codecs (`self.base`,
`self.subcode`), each mapping a source slice and a target length to the
produced bytes.  The staging `self.buffer` becomes `baseOut ++ subOut`;
bytes of the buffer past `subcodeEnd` are never read by the reassembly,
so the stale tail of the real buffer is omitted. -/
def cdDecompress (baseD subD : List Nat → Nat → Except String (List Nat))
    (eccGen : List Nat → List Nat) (src dest : List Nat) :
    Except String (List Nat) :=
  let frames := dest.length / FRAME_SIZE
  let subcodeStart := frames * MAX_SECTOR_DATA
  let subcodeEnd := subcodeStart + frames * MAX_SUBCODE_DATA
  let comprStart := cdComprStart dest.length
  let comprLen := cdComprLen src dest.length
  match baseD ((src.drop comprStart).take comprLen) subcodeStart with
  | .error e => .error e
  | .ok baseOut =>
    match subD (src.drop (comprStart + comprLen)) (subcodeEnd - subcodeStart) with
    | .error e => .error e
    | .ok subOut =>
      .ok (((List.range frames).map
            (cdFrameOut eccGen src (baseOut ++ subOut) subcodeStart)).flatten
        ++ dest.drop (frames * FRAME_SIZE))

theorem length_flatten_map_const {α : Type} (f : Nat → List α) (k : Nat) :
    ∀ n, (∀ i, i < n → (f i).length = k) →
      (((List.range n).map f).flatten).length = n * k := by
  intro n
  induction n with
  | zero => intro _; simp
  | succ n ih =>
    intro h
    rw [List.range_succ, List.map_append, List.flatten_append]
    simp only [List.length_append, List.map_cons, List.map_nil, List.flatten_cons,
      List.flatten_nil, List.append_nil]
    rw [ih (fun i hi => h i (by omega)), h n (by omega)]
    ring

theorem flatten_slice_const {α : Type} {k : Nat} :
    ∀ (L : List (List α)) (rest : List α) (i j m : Nat),
      (∀ l ∈ L, l.length = k) → i < L.length → j + m ≤ k →
      ((L.flatten ++ rest).drop (i * k + j)).take m = ((L.getD i []).drop j).take m := by
  intro L
  induction L with
  | nil =>
    intro rest i j m _ hi _
    simp at hi
  | cons l L ih =>
    intro rest i j m hk hi hjm
    have hl : l.length = k := hk l (by simp)
    cases i with
    | zero =>
      rw [List.flatten_cons, List.append_assoc]
      rw [Nat.zero_mul, Nat.zero_add]
      rw [List.drop_append_of_le_length (by omega)]
      rw [List.take_append_of_le_length (by simp; omega)]
      rfl
    | succ i =>
      rw [List.flatten_cons, List.append_assoc]
      have e : (i + 1) * k + j = l.length + (i * k + j) := by
        rw [hl]; ring
      rw [e, List.drop_append]
      exact ih _ i j m (fun x hx => hk x (by simp [hx])) (by simpa using hi) hjm

/-- C4: over `F = dest.len() / 2448` frames, the CD composite codec
parses `src` as `⌈F/8⌉` ecc flag bytes, a compressed-length field (u16
big-endian when the hunk fits u16, u24 otherwise), that many data-payload
bytes and the remainder as subcode payload; decompresses data into the
staging buffer's first `F × 2352` bytes and subcode into the following
`F × 96`; and reassembles frame `i` as its 2352 data bytes at
`dest[i*2448..]` and 96 subcode bytes at `dest[i*2448+2352..]`, with
sync-pattern overwrite plus ECC regeneration when the frame's flag bit is
set. -/
theorem cdDecompress_spec
    (baseD subD : List Nat → Nat → Except String (List Nat))
    (eccGen : List Nat → List Nat) (src dest baseOut subOut : List Nat)
    (hecc : ∀ l, (eccGen l).length = l.length)
    (hbase : baseD ((src.drop (cdComprStart dest.length)).take (cdComprLen src dest.length))
        (dest.length / FRAME_SIZE * MAX_SECTOR_DATA) = .ok baseOut)
    (hblen : baseOut.length = dest.length / FRAME_SIZE * MAX_SECTOR_DATA)
    (hsub : subD (src.drop (cdComprStart dest.length + cdComprLen src dest.length))
        (dest.length / FRAME_SIZE * MAX_SUBCODE_DATA) = .ok subOut)
    (hslen : subOut.length = dest.length / FRAME_SIZE * MAX_SUBCODE_DATA) :
    ∃ out, cdDecompress baseD subD eccGen src dest = .ok out
      ∧ out.length = dest.length
      ∧ ∀ i, i < dest.length / FRAME_SIZE →
        (out.drop (i * FRAME_SIZE)).take MAX_SECTOR_DATA =
          (if src.getD (i / 8) 0 &&& (1 <<< (i % 8)) ≠ 0 then
            eccGen (SYNC_HEADER ++
              ((baseOut.drop (i * MAX_SECTOR_DATA)).take MAX_SECTOR_DATA).drop
                SYNC_NUM_BYTES)
          else (baseOut.drop (i * MAX_SECTOR_DATA)).take MAX_SECTOR_DATA)
        ∧ (out.drop (i * FRAME_SIZE + MAX_SECTOR_DATA)).take MAX_SUBCODE_DATA
          = (subOut.drop (i * MAX_SUBCODE_DATA)).take MAX_SUBCODE_DATA := by
  have hsec : MAX_SECTOR_DATA = 2352 := rfl
  have hsubc : MAX_SUBCODE_DATA = 96 := rfl
  have hfr : FRAME_SIZE = 2448 := rfl
  have hsyn : SYNC_NUM_BYTES = 12 := rfl
  have hsynlen : SYNC_HEADER.length = 12 := rfl
  set frames := dest.length / FRAME_SIZE with hframes
  set buffer := baseOut ++ subOut with hbufdef
  set F := cdFrameOut eccGen src buffer (frames * MAX_SECTOR_DATA) with hF
  have hbuflen : buffer.length = frames * MAX_SECTOR_DATA + frames * MAX_SUBCODE_DATA := by
    rw [hbufdef, List.length_append, hblen, hslen]
  have hframedata : ∀ i, i < frames →
      (buffer.drop (i * MAX_SECTOR_DATA)).take MAX_SECTOR_DATA
        = (baseOut.drop (i * MAX_SECTOR_DATA)).take MAX_SECTOR_DATA := by
    intro i hi
    rw [hbufdef, List.drop_append_of_le_length (by rw [hblen, hsec] at *; omega)]
    rw [List.take_append_of_le_length (by rw [List.length_drop, hblen, hsec] at *; omega)]
  have hframedata_len : ∀ i, i < frames →
      ((baseOut.drop (i * MAX_SECTOR_DATA)).take MAX_SECTOR_DATA).length
        = MAX_SECTOR_DATA := by
    intro i hi
    rw [List.length_take, List.length_drop, hblen]
    rw [hsec] at *
    omega
  have hframesub : ∀ i,
      (buffer.drop (frames * MAX_SECTOR_DATA + i * MAX_SUBCODE_DATA)).take
          MAX_SUBCODE_DATA
        = (subOut.drop (i * MAX_SUBCODE_DATA)).take MAX_SUBCODE_DATA := by
    intro i
    rw [hbufdef, ← hblen, List.drop_append]
  have hframesub_len : ∀ i, i < frames →
      ((subOut.drop (i * MAX_SUBCODE_DATA)).take MAX_SUBCODE_DATA).length
        = MAX_SUBCODE_DATA := by
    intro i hi
    rw [List.length_take, List.length_drop, hslen]
    rw [hsubc] at *
    omega
  have hsector : ∀ i, i < frames →
      ∃ sector, F i = sector ++ (subOut.drop (i * MAX_SUBCODE_DATA)).take MAX_SUBCODE_DATA
        ∧ sector.length = MAX_SECTOR_DATA
        ∧ sector = (if src.getD (i / 8) 0 &&& (1 <<< (i % 8)) ≠ 0 then
            eccGen (SYNC_HEADER ++
              ((baseOut.drop (i * MAX_SECTOR_DATA)).take MAX_SECTOR_DATA).drop
                SYNC_NUM_BYTES)
          else (baseOut.drop (i * MAX_SECTOR_DATA)).take MAX_SECTOR_DATA) := by
    intro i hi
    refine ⟨_, ?_, ?_, rfl⟩
    · rw [hF]
      unfold cdFrameOut
      rw [hframedata i hi, hframesub i]
    · split
      · rw [hecc, List.length_append, hsynlen, List.length_drop,
          hframedata_len i hi, hsec, hsyn]
      · exact hframedata_len i hi
  have hFlen : ∀ i, i < frames → (F i).length = FRAME_SIZE := by
    intro i hi
    obtain ⟨sector, hFi, hslen2, _⟩ := hsector i hi
    rw [hFi, List.length_append, hslen2, hframesub_len i hi, hfr, hsec, hsubc]
  have hout : cdDecompress baseD subD eccGen src dest
      = .ok (((List.range frames).map F).flatten ++ dest.drop (frames * FRAME_SIZE)) := by
    simp only [cdDecompress, Nat.add_sub_cancel_left, ← hframes, hbase, hsub,
      ← hbufdef, ← hF]
  refine ⟨_, hout, ?_, ?_⟩
  · rw [List.length_append, List.length_drop,
      length_flatten_map_const F FRAME_SIZE frames hFlen]
    rw [hfr] at *
    omega
  · intro i hi
    have hmem : ∀ l ∈ (List.range frames).map F, l.length = FRAME_SIZE := by
      intro l hl
      obtain ⟨j, hj, hjl⟩ := List.mem_map.mp hl
      rw [← hjl]
      exact hFlen j (by simpa using hj)
    have hilen : i < ((List.range frames).map F).length := by simpa using hi
    have hgetD : ((List.range frames).map F).getD i [] = F i := by
      rw [List.getD_eq_getElem _ _ hilen, List.getElem_map, List.getElem_range]
    obtain ⟨sector, hFi, hseclen, hsecval⟩ := hsector i hi
    constructor
    · have h1 := flatten_slice_const ((List.range frames).map F)
        (dest.drop (frames * FRAME_SIZE)) i 0 MAX_SECTOR_DATA hmem hilen
        (by rw [hsec, hfr]; omega)
      rw [Nat.add_zero] at h1
      rw [h1, hgetD, List.drop_zero, hFi,
        List.take_append_of_le_length (by rw [hseclen]),
        List.take_of_length_le (by rw [hseclen]), hsecval]
    · have h2 := flatten_slice_const ((List.range frames).map F)
        (dest.drop (frames * FRAME_SIZE)) i MAX_SECTOR_DATA MAX_SUBCODE_DATA hmem hilen
        (by rw [hsec, hsubc, hfr])
      rw [h2, hgetD, hFi, ← hseclen, List.drop_left]
      rw [List.take_of_length_le (le_of_eq (hframesub_len i hi))]

/-- A one-frame all-zero destination hunk for the `cdDecompress` witness. -/
def cdWitDest : List Nat := List.replicate 2448 0

theorem cdWitDest_length : cdWitDest.length = 2448 := by
  unfold cdWitDest
  rw [List.length_replicate]

/-- Witness for `cdDecompress_spec`: a one-frame hunk with inner codecs
producing constant bytes and identity ECC regeneration decompresses
successfully. -/
theorem cdDecompress_spec_wit :
    ∃ out, cdDecompress (fun _ n => .ok (List.replicate n 7))
        (fun _ n => .ok (List.replicate n 9)) (fun l => l)
        [0, 0, 2, 10, 11, 20, 21] cdWitDest = .ok out := by
  have hN1 : cdWitDest.length / FRAME_SIZE * MAX_SECTOR_DATA = 2352 := by
    rw [cdWitDest_length]
    rfl
  have hN2 : cdWitDest.length / FRAME_SIZE * MAX_SUBCODE_DATA = 96 := by
    rw [cdWitDest_length]
    rfl
  have h := cdDecompress_spec
    (fun _ n => .ok (List.replicate n 7)) (fun _ n => .ok (List.replicate n 9))
    (fun l => l) [0, 0, 2, 10, 11, 20, 21] cdWitDest
    (List.replicate 2352 7) (List.replicate 96 9)
    (fun _ => rfl)
    (by show Except.ok
          (List.replicate (cdWitDest.length / FRAME_SIZE * MAX_SECTOR_DATA) 7)
          = Except.ok (List.replicate 2352 7)
        rw [hN1])
    (by rw [List.length_replicate, hN1])
    (by show Except.ok
          (List.replicate (cdWitDest.length / FRAME_SIZE * MAX_SUBCODE_DATA) 9)
          = Except.ok (List.replicate 96 9)
        rw [hN2])
    (by rw [List.length_replicate, hN2])
  obtain ⟨out, h1, -, -⟩ := h
  exact ⟨out, h1⟩

/-- The reader state that `<Chd as Read>::read` uses: logical position
(`pos`, kept in `[0, size]` by seek/read), the one-hunk cache buffer and
the cached hunk index (src/lib.rs:452-462).  `decode` abstracts
`read_hunk`, whose result for a fixed open file depends only on the hunk
index. -/
structure ChdState where
  pos : Nat
  cache : List Nat
  cachehunk : Nat

/-- One iteration of the `for curhunk in first_hunk..=last_hunk` loop of
`<Chd as Read>::read` (src/lib.rs:683-719).  Fold state: bytes produced so
far, cache contents, cached hunk index.  A full-hunk window over a
non-cached hunk decodes straight to the destination; otherwise a
non-cached hunk is decoded into the cache (tagging it) and the window is
copied from the cache. -/
def readStep (hb first last pos lastbyte : Nat) (decode : Nat → List Nat)
    (st : List Nat × List Nat × Nat) (curhunk : Nat) : List Nat × List Nat × Nat :=
  let startoffs := if curhunk = first then pos % hb else 0
  let endoffs := if curhunk = last then lastbyte % hb else hb - 1
  let length := endoffs + 1 - startoffs
  if startoffs = 0 ∧ endoffs = hb - 1 ∧ curhunk ≠ st.2.2 then
    (st.1 ++ decode curhunk, st.2.1, st.2.2)
  else if curhunk ≠ st.2.2 then
    (st.1 ++ ((decode curhunk).drop startoffs).take length, decode curhunk, curhunk)
  else
    (st.1 ++ (st.2.1.drop startoffs).take length, st.2.1, st.2.2)

/-- Embedding of `<Chd as Read>::read` (src/lib.rs:663-722): clip the
request to the remaining logical bytes, split it into per-hunk windows,
serve each window by `readStep`, and advance `pos` by the produced
length. -/
def chdRead (hb size : Nat) (decode : Nat → List Nat) (s : ChdState) (buflen : Nat) :
    List Nat × ChdState :=
  let hasbytes := size - s.pos
  if hasbytes = 0 then ([], s)
  else
    let len := if hasbytes < buflen then hasbytes else buflen
    let lastbyte := s.pos + len - 1
    let firstHunk := s.pos / hb
    let lastHunk := lastbyte / hb
    let r := (List.range' firstHunk (lastHunk + 1 - firstHunk)).foldl
      (readStep hb firstHunk lastHunk s.pos lastbyte decode) ([], s.cache, s.cachehunk)
    (r.1, ⟨s.pos + len, r.2.1, r.2.2⟩)

/-- The concatenation of `cnt` full decoded hunks starting at `first`. -/
def hunkSpanBytes (decode : Nat → List Nat) (first cnt : Nat) : List Nat :=
  ((List.range' first cnt).map decode).flatten

/-- The specification-side result of reading `[a, b)`: decode every hunk
intersecting the range in full, concatenate, and slice out `[a, b)`. -/
def readSpecBytes (hb : Nat) (decode : Nat → List Nat) (a b : Nat) : List Nat :=
  ((hunkSpanBytes decode (a / hb) ((b - 1) / hb + 1 - a / hb)).drop (a % hb)).take (b - a)

theorem readStep_eval (hb first last pos lastbyte : Nat) (decode : Nat → List Nat)
    (out cache : List Nat) (chk cur : Nat) :
    readStep hb first last pos lastbyte decode (out, cache, chk) cur =
      if (if cur = first then pos % hb else 0) = 0
          ∧ (if cur = last then lastbyte % hb else hb - 1) = hb - 1 ∧ cur ≠ chk then
        (out ++ decode cur, cache, chk)
      else if cur ≠ chk then
        (out ++ ((decode cur).drop (if cur = first then pos % hb else 0)).take
            ((if cur = last then lastbyte % hb else hb - 1) + 1
              - (if cur = first then pos % hb else 0)), decode cur, cur)
      else
        (out ++ (cache.drop (if cur = first then pos % hb else 0)).take
            ((if cur = last then lastbyte % hb else hb - 1) + 1
              - (if cur = first then pos % hb else 0)), cache, chk) := rfl

theorem readLoop_spec (hb : Nat) (decode : Nat → List Nat) (pos lastbyte : Nat)
    (hhb : 0 < hb) (hdec : ∀ i, (decode i).length = hb) :
    ∀ n cur (out cache : List Nat) (chk : Nat),
      cur + n = lastbyte / hb + 1 → pos / hb ≤ cur →
      (∀ i, pos / hb ≤ i → i ≤ lastbyte / hb → chk = i → cache = decode i) →
      ((List.range' cur n).foldl
          (readStep hb (pos / hb) (lastbyte / hb) pos lastbyte decode)
          (out, cache, chk)).1
        = out ++ ((((List.range' cur n).map decode).flatten).drop
            ((if cur = pos / hb then pos else cur * hb) - cur * hb)).take
            (lastbyte + 1 - (if cur = pos / hb then pos else cur * hb)) := by
  intro n
  induction n with
  | zero =>
    intro cur out cache chk hcn hfc hinv
    simp
  | succ n ih =>
    intro cur out cache chk hcn hfc hinv
    rw [List.range'_succ, List.foldl_cons, List.map_cons, List.flatten_cons, readStep_eval]
    set so := (if cur = pos / hb then pos % hb else 0) with hsodef
    set p := (if cur = pos / hb then pos else cur * hb) with hpdef
    have hposdm : pos / hb * hb + pos % hb = pos := Nat.div_add_mod' pos hb
    have hlbdm : lastbyte / hb * hb + lastbyte % hb = lastbyte := Nat.div_add_mod' lastbyte hb
    have hposr : pos % hb < hb := Nat.mod_lt _ hhb
    have hlbr : lastbyte % hb < hb := Nat.mod_lt _ hhb
    have hcurmul : cur * hb + hb = (cur + 1) * hb := (Nat.succ_mul cur hb).symm
    have hcurle : pos / hb * hb ≤ cur * hb := Nat.mul_le_mul_right hb hfc
    have hsolt : so < hb := by
      rw [hsodef]
      split <;> omega
    have hpge : cur * hb ≤ p := by
      rw [hpdef]
      split
      case isTrue h => rw [h]; omega
      case isFalse h => omega
    have hp : p = cur * hb + so := by
      rw [hpdef, hsodef]
      split
      case isTrue h => rw [h]; omega
      case isFalse h => omega
    by_cases hcl : cur = lastbyte / hb
    · -- final hunk of the range
      have hn0 : n = 0 := by omega
      subst hn0
      rw [List.range'_zero, List.foldl_nil, List.map_nil, List.flatten_nil,
        List.append_nil, if_pos hcl]
      have hcmul : cur * hb = lastbyte / hb * hb := by rw [hcl]
      by_cases hdir : so = 0 ∧ lastbyte % hb = hb - 1 ∧ cur ≠ chk
      · rw [if_pos hdir]
        show out ++ decode cur = _
        have h0 : p - cur * hb = 0 := by omega
        have hL : lastbyte + 1 - p = hb := by omega
        rw [h0, hL, List.drop_zero, List.take_of_length_le (le_of_eq (hdec cur))]
      · rw [if_neg hdir]
        by_cases hch : cur = chk
        · rw [if_neg (not_not_intro hch)]
          have hcache : cache = decode cur := hinv cur hfc (by omega) hch.symm
          show out ++ (cache.drop so).take (lastbyte % hb + 1 - so) = _
          rw [hcache]
          have h1 : p - cur * hb = so := by omega
          have h2 : lastbyte + 1 - p = lastbyte % hb + 1 - so := by omega
          rw [h1, h2]
        · rw [if_pos hch]
          show out ++ ((decode cur).drop so).take (lastbyte % hb + 1 - so) = _
          have h1 : p - cur * hb = so := by omega
          have h2 : lastbyte + 1 - p = lastbyte % hb + 1 - so := by omega
          rw [h1, h2]
    · -- an inner hunk: the window runs to the end of the hunk
      rw [if_neg hcl]
      have hcllt : cur < lastbyte / hb := by omega
      have hlbge : (cur + 1) * hb ≤ lastbyte := by
        have h1 : (cur + 1) * hb ≤ lastbyte / hb * hb :=
          Nat.mul_le_mul_right hb (by omega)
        omega
      have hc1f : ¬(cur + 1 = pos / hb) := by omega
      by_cases hdir : so = 0 ∧ hb - 1 = hb - 1 ∧ cur ≠ chk
      · rw [if_pos hdir]
        rw [ih (cur + 1) (out ++ decode cur) cache chk (by omega) (by omega)
          (fun i h1 h2 h3 => hinv i (by omega) h2 h3)]
        rw [if_neg hc1f, Nat.sub_self, List.drop_zero]
        have h0 : p - cur * hb = 0 := by omega
        rw [h0, List.drop_zero]
        have hL : lastbyte + 1 - p
            = (decode cur).length + (lastbyte + 1 - (cur + 1) * hb) := by
          rw [hdec]
          omega
        rw [hL, List.take_append, List.append_assoc]
      · rw [if_neg hdir]
        by_cases hch : cur = chk
        · rw [if_neg (not_not_intro hch)]
          have hcache : cache = decode cur := hinv cur hfc (by omega) hch.symm
          rw [ih (cur + 1) (out ++ (cache.drop so).take (hb - 1 + 1 - so)) cache chk
            (by omega) (by omega) (fun i h1 h2 h3 => hinv i (by omega) h2 h3)]
          rw [if_neg hc1f, Nat.sub_self, List.drop_zero, hcache]
          have hext : ((decode cur).drop so).take (hb - 1 + 1 - so)
              = (decode cur).drop so := by
            apply List.take_of_length_le
            rw [List.length_drop, hdec]
            omega
          rw [hext]
          have h1 : p - cur * hb = so := by omega
          rw [h1, List.drop_append_of_le_length (by rw [hdec]; omega)]
          have hL : lastbyte + 1 - p
              = ((decode cur).drop so).length + (lastbyte + 1 - (cur + 1) * hb) := by
            rw [List.length_drop, hdec]
            omega
          rw [hL, List.take_append, List.append_assoc]
        · rw [if_pos hch]
          rw [ih (cur + 1) (out ++ ((decode cur).drop so).take (hb - 1 + 1 - so))
            (decode cur) cur (by omega) (by omega) (fun i h1 h2 h3 => by rw [← h3])]
          rw [if_neg hc1f, Nat.sub_self, List.drop_zero]
          have hext : ((decode cur).drop so).take (hb - 1 + 1 - so)
              = (decode cur).drop so := by
            apply List.take_of_length_le
            rw [List.length_drop, hdec]
            omega
          rw [hext]
          have h1 : p - cur * hb = so := by omega
          rw [h1, List.drop_append_of_le_length (by rw [hdec]; omega)]
          have hL : lastbyte + 1 - p
              = ((decode cur).drop so).length + (lastbyte + 1 - (cur + 1) * hb) := by
            rw [List.length_drop, hdec]
            omega
          rw [hL, List.take_append, List.append_assoc]

/-- C1: for every open reader and byte range `[a, b)` within the logical
size, seeking to `a` and reading `b - a` bytes returns exactly the bytes
obtained by decoding every hunk intersecting `[a, b)` in full and slicing
out `[a, b)`: full-hunk windows over non-cached hunks are decoded directly
to the destination, all other windows go through the single cache slot,
and the position advances by the number of bytes produced.  The
cache-coherence hypothesis states the reader invariant that the cache
holds the decoded contents of the tagged hunk (true from `open` on, where
the tag is the out-of-range sentinel `usize::MAX`). -/
theorem chdRead_refines (hb size : Nat) (decode : Nat → List Nat) (s : ChdState) (b : Nat)
    (hhb : 0 < hb) (hdec : ∀ i, (decode i).length = hb)
    (hab : s.pos < b) (hbs : b ≤ size)
    (hcache : ∀ i, s.pos / hb ≤ i → i ≤ (b - 1) / hb → s.cachehunk = i → s.cache = decode i) :
    (chdRead hb size decode s (b - s.pos)).1 = readSpecBytes hb decode s.pos b
    ∧ (chdRead hb size decode s (b - s.pos)).2.pos = b := by
  have hfl : s.pos / hb ≤ (b - 1) / hb := Nat.div_le_div_right (by omega)
  simp only [chdRead]
  rw [if_neg (show ¬(size - s.pos = 0) by omega)]
  rw [if_neg (show ¬(size - s.pos < b - s.pos) by omega)]
  have hlastbyte : s.pos + (b - s.pos) - 1 = b - 1 := by omega
  rw [hlastbyte]
  constructor
  · have hloop := readLoop_spec hb decode s.pos (b - 1) hhb hdec
      ((b - 1) / hb + 1 - s.pos / hb) (s.pos / hb) [] s.cache s.cachehunk
      (by omega) (le_refl _) hcache
    rw [if_pos rfl] at hloop
    rw [hloop, List.nil_append]
    unfold readSpecBytes hunkSpanBytes
    have hposdm : s.pos / hb * hb + s.pos % hb = s.pos := Nat.div_add_mod' s.pos hb
    rw [show s.pos - s.pos / hb * hb = s.pos % hb by omega]
    rw [show b - 1 + 1 - s.pos = b - s.pos by omega]
  · show s.pos + (b - s.pos) = b
    omega

/-- Witness for `chdRead_refines`: a reader with hunk size 4, logical
size 12, hunk 0 cached, reading the range `[2, 7)`. -/
theorem chdRead_refines_wit :
    (chdRead 4 12 (fun i => List.replicate 4 i)
        ⟨2, List.replicate 4 0, 0⟩ (7 - (⟨2, List.replicate 4 0, 0⟩ : ChdState).pos)).1
      = readSpecBytes 4 (fun i => List.replicate 4 i) (⟨2, List.replicate 4 0, 0⟩ : ChdState).pos 7
    ∧ (chdRead 4 12 (fun i => List.replicate 4 i)
        ⟨2, List.replicate 4 0, 0⟩ (7 - (⟨2, List.replicate 4 0, 0⟩ : ChdState).pos)).2.pos = 7 :=
  chdRead_refines 4 12 (fun i => List.replicate 4 i) ⟨2, List.replicate 4 0, 0⟩ 7
    (by norm_num) (fun i => by simp) (by decide) (by norm_num)
    (fun i h1 h2 h3 => by rw [← h3])

end ChdProof
